import Mathlib

/-!
Verification development for the go-metrics-to-prometheus bridge
(`prometheusmetrics.go`).  The Go code is shallowly embedded: the mutable
`gauges` map of `PrometheusConfig` and the external prometheus registry are
modelled by an explicit `BridgeState` threaded through the operations, and
`float64` values are modelled as exact rationals (the code only moves
`float64` values around, converting `int64` readings with `float64(-)`; it
performs no floating-point arithmetic of its own).
-/

namespace GoMetricsPrometheus

/-- Scalar values of Go type `float64`, modelled as exact rationals. -/
abbrev Float64 := Rat

/-- A raw metric object held by the go-metrics source registry, as observed
through the accessors the bridge calls.  `counter` carries `Count()`,
`gauge` and `gaugeFloat64` carry `Value()`, `histogram` carries
`Snapshot().Sample().Values()` (an `int64` sequence), `meter` and `timer`
carry `Snapshot().Rate1()`.  `histogram` and `unknown` additionally carry
the string `reflect.TypeOf` would print for the dynamic type, because the
code reaches its `reflect.TypeOf` call for those shapes. -/
inductive Metric where
  | counter (count : Int)
  | gauge (value : Int)
  | gaugeFloat64 (value : Float64)
  | histogram (tyDesc : String) (sampleValues : List Int)
  | meter (rate1 : Float64)
  | timer (rate1 : Float64)
  | unknown (tyDesc : String)
deriving DecidableEq

/-- Go type `MetricConverter = func(name string, metric interface{}) (float64, error)`.
The Go pair result `(float64, error)` is modelled as a pair of the value and
an optional error message. -/
def MetricConverter := String → Metric → Float64 × Option String

/-- Go type `Normalizer = func(name string) string`. -/
def Normalizer := String → String

/-- The error text produced by
`fmt.Errorf("metric '%s' has unknown type: %s", name, reflect.TypeOf(i))`. -/
def unknownTypeMsg (name tyDesc : String) : String :=
  "metric \x27" ++ name ++ "\x27 has unknown type: " ++ tyDesc

/-- Function `DefaultMetricConverter` from the source.  The Go `switch` has no
fall-through between cases, but a case that returns nothing (a histogram
whose sample slice is empty) falls out of the `switch` to the final
`return 0.0, fmt.Errorf(...)` line; that shared line is duplicated here in
the two places control can reach it. -/
def DefaultMetricConverter (name : String) (i : Metric) : Float64 × Option String :=
  match i with
  | .counter count => ((count : Float64), none)
  | .gauge value => ((value : Float64), none)
  | .gaugeFloat64 value => (value, none)
  | .histogram tyDesc samples =>
      if samples.length > 0 then
        (((samples.getD (samples.length - 1) 0 : Int) : Float64), none)
      else
        (0, some (unknownTypeMsg name tyDesc))
  | .meter rate1 => (rate1, none)
  | .timer rate1 => (rate1, none)
  | .unknown tyDesc => (0, some (unknownTypeMsg name tyDesc))

/-- Go `strings.Replace(s, old, new, -1)` for a single one-byte (ASCII)
pattern character: in UTF-8, an ASCII byte never occurs inside the encoding
of another code point, so replacing the byte is replacing the character. -/
def replaceChar (old new : Char) (s : String) : String :=
  String.mk (s.data.map (fun c => if c = old then new else c))

/-- Function `DefaultKeyNormalizer` from the source: four sequential replacements,
space first, then the dot, the dash and the equals sign. -/
def DefaultKeyNormalizer (key : String) : String :=
  replaceChar '=' '_' (replaceChar '-' '_' (replaceChar '.' '_' (replaceChar ' ' '_' key)))

/-- Go `strings.ToLower`, modelled on the basic-latin range via
`Char.toLower` (the inputs the repository normalizes are ASCII metric
identifiers; the properties proved below use only that lowering maps each
character independently and fixes its own image). -/
def strToLower (s : String) : String :=
  String.mk (s.data.map Char.toLower)

/-- Function `LowerCaseKeyNormalizer` from the source:
`strings.ToLower(DefaultKeyNormalizer(key))`. -/
def LowerCaseKeyNormalizer (key : String) : String :=
  strToLower (DefaultKeyNormalizer key)

/-- The immutable configuration fields of `PrometheusConfig`.  The mutable
`gauges` map and the external `promRegistry` are modelled by `BridgeState`
below; `FlushInterval` is a Go `time.Duration`, an `int64` count of
nanoseconds. -/
structure PrometheusConfig where
  Namespace : String
  registry : List (String × Metric)
  Subsystem : String
  FlushInterval : Int
  converter : MetricConverter
  keyNormalizer : Normalizer

/-- Go `optSetter = func(c *PrometheusConfig) error`: either an updated
configuration or the error the setter returned (in which case
`NewPrometheusProvider` discards the configuration). -/
def optSetter := PrometheusConfig → Except String PrometheusConfig

/-- The `Converter` option setter. -/
def Converter (converter : MetricConverter) : optSetter :=
  fun c => .ok { c with converter := converter }

/-- The `KeyNormalizer` option setter. -/
def KeyNormalizer (normalizer : Normalizer) : optSetter :=
  fun c => .ok { c with keyNormalizer := normalizer }

/-- The `FlushRate` option setter; it stores any duration unchecked. -/
def FlushRate (duration : Int) : optSetter :=
  fun c => .ok { c with FlushInterval := duration }

/-- The `for _, s := range setters` loop of `NewPrometheusProvider`:
setters run in order and the first error aborts. -/
def applyOpts : List optSetter → PrometheusConfig → Except String PrometheusConfig
  | [], c => .ok c
  | s :: rest, c =>
      match s c with
      | .error e => .error e
      | .ok c2 => applyOpts rest c2

/-- The configuration literal `NewPrometheusProvider` builds before running
the setters: 15 seconds is `15 * time.Second` nanoseconds, converter and
normalizer default to the shipped ones. -/
def initialConf (r : List (String × Metric)) (ns ss : String) : PrometheusConfig :=
  { Namespace := ns
    Subsystem := ss
    registry := r
    FlushInterval := 15 * 1000000000
    converter := DefaultMetricConverter
    keyNormalizer := DefaultKeyNormalizer }

/-- Function `NewPrometheusProvider` from the source: build the default
configuration, then apply the option setters in order, failing closed on
the first setter error. -/
def NewPrometheusProvider (r : List (String × Metric)) (ns ss : String)
    (setters : List optSetter) : Except String PrometheusConfig :=
  applyOpts setters (initialConf r ns ss)

/-- The fields of `prometheus.GaugeOpts` the code fills in. -/
structure GaugeOpts where
  Namespace : String
  Subsystem : String
  Name : String
  Help : String
deriving DecidableEq

/-- The mutable state the bridge touches: the `gauges` cache (a map from
cache key to the gauge handle, here the index of the registration that
created the handle), the log of `promRegistry.MustRegister` calls, and the
log of `g.Set(val)` calls on the handles. -/
structure BridgeState where
  gauges : List (String × Nat)
  registrations : List GaugeOpts
  sets : List (Nat × Float64)
deriving DecidableEq

/-- The state at provider construction: `make(map[string]prometheus.Gauge)`
and no calls issued yet. -/
def emptyBridgeState : BridgeState := ⟨[], [], []⟩

/-- Lookup in the modelled `map[string]prometheus.Gauge`. -/
def mapLookup : List (String × Nat) → String → Option Nat
  | [], _ => none
  | (k, g) :: rest, key => if k = key then some g else mapLookup rest key

/-- The key `fmt.Sprintf("%s_%s_%s", c.Namespace, c.Subsystem, name)`. -/
def cacheKey (c : PrometheusConfig) (name : String) : String :=
  c.Namespace ++ "_" ++ c.Subsystem ++ "_" ++ name

/-- The `prometheus.GaugeOpts` literal built on a cache miss. -/
def mkGaugeOpts (c : PrometheusConfig) (name : String) : GaugeOpts :=
  { Namespace := c.keyNormalizer c.Namespace
    Subsystem := c.keyNormalizer c.Subsystem
    Name := c.keyNormalizer name
    Help := name }

/-- Function `gaugeFromNameAndValue` from the source: look the raw key up in the
cache; on a miss build the normalized descriptor, register it (the fresh
handle is the next registration index) and cache it under the raw key; in
either case set the handle to `val`. -/
def gaugeFromNameAndValue (c : PrometheusConfig) (name : String) (val : Float64)
    (st : BridgeState) : BridgeState :=
  let key := cacheKey c name
  match mapLookup st.gauges key with
  | some g => { st with sets := st.sets ++ [(g, val)] }
  | none =>
      let g := st.registrations.length
      { gauges := st.gauges ++ [(key, g)]
        registrations := st.registrations ++ [mkGaugeOpts c name]
        sets := st.sets ++ [(g, val)] }

/-- The closure passed to `Registry.Each`: convert, and upsert only when
the converter reported no error. -/
def convertAndMaybeUpsert (c : PrometheusConfig) (st : BridgeState)
    (nm : String × Metric) : BridgeState :=
  match c.converter nm.1 nm.2 with
  | (value, none) => gaugeFromNameAndValue c nm.1 value st
  | (_, some _) => st

/-- Function `UpdatePrometheusMetricsOnce` from the source: one pass over the source
registry in its iteration order, followed by the unconditional `return nil`. -/
def UpdatePrometheusMetricsOnce (c : PrometheusConfig) (st : BridgeState) :
    BridgeState × Option String :=
  (c.registry.foldl (convertAndMaybeUpsert c) st, none)

/-- A sequence of passes.  Each pass sees its own snapshot of the source
registry contents (the host application may mutate metric values, and add
or remove metrics, between passes). -/
def runPassesOn (c : PrometheusConfig) :
    List (List (String × Metric)) → BridgeState → BridgeState
  | [], st => st
  | reg :: rest, st =>
      runPassesOn c rest (UpdatePrometheusMetricsOnce { c with registry := reg } st).1

/-! ### Claim theorems -/

/-- Claim C1, counterexample: on a histogram whose snapshot sample sequence
is empty, `DefaultMetricConverter` does not return a nil error — the
`switch` case returns nothing, control falls out to the shared
`return 0.0, fmt.Errorf(...)` line, so the pair carries a non-nil error and
the publisher skips the metric instead of publishing a 0. -/
theorem emptyHistogram_counterexample :
    (DefaultMetricConverter "hist" (Metric.histogram "metrics.Histogram" [])).2 ≠ none := by
  decide

/-- Claim C1 as amended: for every Histogram metric whose snapshot sample
sequence is empty, `DefaultMetricConverter` returns the value `0.0`
together with a non-nil error (the unknown-type error naming the metric),
so the publisher skips the metric for that pass rather than publishing a
zero. -/
theorem emptyHistogram_returns_zero_and_error (name tyDesc : String) :
    DefaultMetricConverter name (Metric.histogram tyDesc [])
      = (0, some ("metric \x27" ++ name ++ "\x27 has unknown type: " ++ tyDesc)) := rfl

/-- Claim C3: `DefaultMetricConverter` matches the reference table — a
counter yields its count as float64 with no error, an integer gauge its
value, a float gauge its value, a histogram with a nonempty snapshot
sample sequence the last element of that sequence, a meter and a timer the
snapshot 1-minute rate, and any other value an error whose message is
`metric <name> has unknown type: <type-descriptor>`. -/
theorem defaultMetricConverter_table (name : String) :
    (∀ count : Int, DefaultMetricConverter name (.counter count) = ((count : Float64), none))
    ∧ (∀ value : Int, DefaultMetricConverter name (.gauge value) = ((value : Float64), none))
    ∧ (∀ value : Float64, DefaultMetricConverter name (.gaugeFloat64 value) = (value, none))
    ∧ (∀ (tyDesc : String) (s : Int) (rest : List Int),
        DefaultMetricConverter name (.histogram tyDesc (s :: rest))
          = ((((s :: rest).getLast (List.cons_ne_nil s rest) : Int) : Float64), none))
    ∧ (∀ rate1 : Float64, DefaultMetricConverter name (.meter rate1) = (rate1, none))
    ∧ (∀ rate1 : Float64, DefaultMetricConverter name (.timer rate1) = (rate1, none))
    ∧ (∀ tyDesc : String,
        (DefaultMetricConverter name (.unknown tyDesc)).2
          = some ("metric \x27" ++ name ++ "\x27 has unknown type: " ++ tyDesc)) := by
  refine ⟨fun _ => rfl, fun _ => rfl, fun _ => rfl, ?_, fun _ => rfl, fun _ => rfl, fun _ => rfl⟩
  intro tyDesc s rest
  have h : (s :: rest).length > 0 := by simp
  simp [DefaultMetricConverter, h, List.getLast_eq_getElem]

/-- One pass only processes the entries whose conversion succeeds: folding
the upsert step over a registry equals folding it over the sub-registry of
successfully converting entries. -/
theorem foldl_upsert_filter (c : PrometheusConfig) :
    ∀ (entries : List (String × Metric)) (st : BridgeState),
      entries.foldl (convertAndMaybeUpsert c) st
        = (entries.filter (fun nm => (c.converter nm.1 nm.2).2.isNone)).foldl
            (convertAndMaybeUpsert c) st := by
  intro entries
  induction entries with
  | nil => intro st; rfl
  | cons a as ih =>
      intro st
      cases h : c.converter a.1 a.2 with
      | mk value err =>
          cases err with
          | none =>
              have hf : (fun nm : String × Metric => (c.converter nm.1 nm.2).2.isNone) a = true := by
                simp only [h]
                rfl
              rw [List.filter_cons_of_pos (p := fun nm : String × Metric => (c.converter nm.1 nm.2).2.isNone) hf,
                List.foldl_cons, List.foldl_cons]
              exact ih _
          | some e =>
              have hf : ¬ (fun nm : String × Metric => (c.converter nm.1 nm.2).2.isNone) a = true := by
                simp only [h]
                simp
              rw [List.filter_cons_of_neg (p := fun nm : String × Metric => (c.converter nm.1 nm.2).2.isNone) hf,
                List.foldl_cons]
              have hstep : convertAndMaybeUpsert c st a = st := by
                unfold convertAndMaybeUpsert
                rw [h]
              rw [hstep]
              exact ih _

/-- Claim C4: `UpdatePrometheusMetricsOnce` always returns a nil error, and
the pass it performs is exactly the pass over the sub-registry of metrics
whose conversion succeeds — a metric whose conversion fails contributes no
registration and no set call, while every other metric is still converted
and upserted. -/
theorem updateOnce_succeeds_and_skips_failures (c : PrometheusConfig) (st : BridgeState) :
    (UpdatePrometheusMetricsOnce c st).2 = none
    ∧ UpdatePrometheusMetricsOnce c st
        = UpdatePrometheusMetricsOnce
            { c with registry := c.registry.filter (fun nm => (c.converter nm.1 nm.2).2.isNone) }
            st := by
  refine ⟨rfl, ?_⟩
  unfold UpdatePrometheusMetricsOnce
  exact congrArg (fun l => (l, none)) (foldl_upsert_filter c c.registry st)

/-- Claim C5: the cache key written and looked up by
`gaugeFromNameAndValue` is the raw concatenation
`namespace + "_" + subsystem + "_" + name`; the configured normalizer is
never applied to it — replacing the normalizer changes no cache entry. -/
theorem cacheKey_raw_and_normalizer_free (c : PrometheusConfig) (st : BridgeState)
    (name : String) (val : Float64) :
    ((gaugeFromNameAndValue c name val st).gauges.map Prod.fst = st.gauges.map Prod.fst
      ∨ (gaugeFromNameAndValue c name val st).gauges.map Prod.fst
          = st.gauges.map Prod.fst ++ [c.Namespace ++ "_" ++ c.Subsystem ++ "_" ++ name])
    ∧ ∀ f : Normalizer,
        (gaugeFromNameAndValue { c with keyNormalizer := f } name val st).gauges
          = (gaugeFromNameAndValue c name val st).gauges := by
  constructor
  · cases h : mapLookup st.gauges (cacheKey c name) with
    | none =>
        right
        simp only [gaugeFromNameAndValue, h]
        simp [cacheKey]
    | some g =>
        left
        simp only [gaugeFromNameAndValue, h]
  · intro f
    have hkey : cacheKey { c with keyNormalizer := f } name = cacheKey c name := rfl
    cases h : mapLookup st.gauges (cacheKey c name) with
    | none => simp only [gaugeFromNameAndValue, hkey, h]
    | some g => simp only [gaugeFromNameAndValue, hkey, h]

/-- Claim C6: on a cache miss, the registered gauge descriptor carries the
configured normalizer applied to the raw namespace, subsystem and name,
while its help text is the raw metric name with its original case. -/
theorem firstRegistration_descriptor (c : PrometheusConfig) (st : BridgeState)
    (name : String) (val : Float64)
    (h : mapLookup st.gauges (cacheKey c name) = none) :
    (gaugeFromNameAndValue c name val st).registrations
      = st.registrations
        ++ [{ Namespace := c.keyNormalizer c.Namespace
              Subsystem := c.keyNormalizer c.Subsystem
              Name := c.keyNormalizer name
              Help := name }] := by
  simp [gaugeFromNameAndValue, h, mkGaugeOpts]

/-- A configuration used to instantiate `firstRegistration_descriptor`:
the lower-casing normalizer with the namespace and subsystem of the
repository test suite. -/
def lowerCaseConf : PrometheusConfig :=
  { Namespace := "test"
    Subsystem := "subsys"
    registry := []
    FlushInterval := 1000000000
    converter := DefaultMetricConverter
    keyNormalizer := LowerCaseKeyNormalizer }

/-- Witness for claim C6: registering the metric name `Counter` through
the lower-casing normalizer yields the external identifier `counter` while
the help text keeps the original case. -/
theorem firstRegistration_descriptor_witness :
    mapLookup emptyBridgeState.gauges (cacheKey lowerCaseConf "Counter") = none
    ∧ (gaugeFromNameAndValue lowerCaseConf "Counter" 2 emptyBridgeState).registrations
        = [{ Namespace := "test", Subsystem := "subsys", Name := "counter", Help := "Counter" }] :=
  ⟨rfl,
   (firstRegistration_descriptor lowerCaseConf emptyBridgeState "Counter" 2 rfl).trans
     (by decide)⟩

/-- The single-character action the spec ascribes to the default
normalizer: the four punctuation characters become underscores, everything
else is unchanged. -/
def specNormChar (c : Char) : Char :=
  if c = ' ' ∨ c = '.' ∨ c = '-' ∨ c = '=' then '_' else c

/-- The four sequential replacements of `DefaultKeyNormalizer` act on the
character sequence as one pointwise map. -/
theorem defaultKeyNormalizer_eq_map (key : String) :
    DefaultKeyNormalizer key = String.mk (key.data.map specNormChar) := by
  simp only [DefaultKeyNormalizer, replaceChar, List.map_map]
  refine congrArg String.mk ?_
  refine List.map_congr_left fun ch _ => ?_
  by_cases h1 : ch = ' ' <;> by_cases h2 : ch = '.' <;> by_cases h3 : ch = '-' <;>
    by_cases h4 : ch = '=' <;> simp [specNormChar, Function.comp, h1, h2, h3, h4]

/-- Function `LowerCaseKeyNormalizer` acts on the character sequence as the
pointwise composite of replacement and lowering. -/
theorem lowerCaseKeyNormalizer_eq_map (key : String) :
    LowerCaseKeyNormalizer key
      = String.mk (key.data.map (fun ch => (specNormChar ch).toLower)) := by
  rw [LowerCaseKeyNormalizer, defaultKeyNormalizer_eq_map]
  simp only [strToLower, List.map_map]
  rfl

/-- The replacement map never outputs one of the four replaced characters. -/
theorem specNormChar_not_special (c : Char) :
    ¬ (specNormChar c = ' ' ∨ specNormChar c = '.' ∨ specNormChar c = '-'
        ∨ specNormChar c = '=') := by
  unfold specNormChar
  split
  · decide
  · next h => exact h

/-- The replacement map fixes characters that are not replaced. -/
theorem specNormChar_fixed (c : Char)
    (h : ¬ (c = ' ' ∨ c = '.' ∨ c = '-' ∨ c = '=')) : specNormChar c = c :=
  if_neg h

/-- The replacement map is idempotent on characters. -/
theorem specNormChar_idem (c : Char) : specNormChar (specNormChar c) = specNormChar c :=
  specNormChar_fixed _ (specNormChar_not_special c)

/-- Lowering fixes characters outside the upper-case basic-latin range. -/
theorem toLower_eq_self (c : Char) (h : ¬ (65 ≤ c.toNat ∧ c.toNat ≤ 90)) :
    c.toLower = c := by
  unfold Char.toLower
  exact if_neg h

/-- Proving a decidable character property for the 26 upper-case letters
by enumeration. -/
theorem upper_char_cases (c : Char) (h1 : 65 ≤ c.toNat) (h2 : c.toNat ≤ 90)
    {P : Char → Prop} (h : ∀ n, 65 ≤ n → n ≤ 90 → P (Char.ofNat n)) : P c := by
  rw [← Char.ofNat_toNat c]
  exact h c.toNat h1 h2

/-- Lowering with `Char.toLower` is idempotent. -/
theorem toLower_toLower (c : Char) : c.toLower.toLower = c.toLower := by
  by_cases h : 65 ≤ c.toNat ∧ c.toNat ≤ 90
  · refine upper_char_cases c h.1 h.2 (P := fun x => x.toLower.toLower = x.toLower)
      fun n hn1 hn2 => ?_
    interval_cases n <;> decide
  · rw [toLower_eq_self c h]
    exact toLower_eq_self c h

/-- Lowering a character that is not one of the four replaced characters
yields a character that is again not one of them. -/
theorem toLower_not_special (d : Char)
    (hd : ¬ (d = ' ' ∨ d = '.' ∨ d = '-' ∨ d = '=')) :
    ¬ (d.toLower = ' ' ∨ d.toLower = '.' ∨ d.toLower = '-' ∨ d.toLower = '=') := by
  by_cases h : 65 ≤ d.toNat ∧ d.toNat ≤ 90
  · refine upper_char_cases d h.1 h.2
      (P := fun x => ¬ (x.toLower = ' ' ∨ x.toLower = '.' ∨ x.toLower = '-' ∨ x.toLower = '='))
      fun n hn1 hn2 => ?_
    interval_cases n <;> decide
  · rw [toLower_eq_self d h]
    exact hd

/-- The composite lower-casing character map is idempotent. -/
theorem lowerNormChar_idem (c : Char) :
    (specNormChar ((specNormChar c).toLower)).toLower = (specNormChar c).toLower := by
  rw [specNormChar_fixed _ (toLower_not_special _ (specNormChar_not_special c))]
  exact toLower_toLower _

/-- Claim C7: `DefaultKeyNormalizer` replaces every occurrence of each of
the literal characters space, dot, dash and equals with an underscore and
leaves every other character unchanged, and `LowerCaseKeyNormalizer` is
`DefaultKeyNormalizer` followed by lower-casing the result. -/
theorem keyNormalizer_characterization (key : String) :
    DefaultKeyNormalizer key
      = String.mk (key.data.map (fun c =>
          if c = ' ' ∨ c = '.' ∨ c = '-' ∨ c = '=' then '_' else c))
    ∧ LowerCaseKeyNormalizer key = strToLower (DefaultKeyNormalizer key) :=
  ⟨defaultKeyNormalizer_eq_map key, rfl⟩

/-- Claim C8: both shipped normalizers are idempotent. -/
theorem keyNormalizers_idempotent (key : String) :
    DefaultKeyNormalizer (DefaultKeyNormalizer key) = DefaultKeyNormalizer key
    ∧ LowerCaseKeyNormalizer (LowerCaseKeyNormalizer key) = LowerCaseKeyNormalizer key := by
  constructor
  · rw [defaultKeyNormalizer_eq_map key, defaultKeyNormalizer_eq_map]
    refine congrArg String.mk ?_
    simp only [List.map_map]
    exact List.map_congr_left fun ch _ => specNormChar_idem ch
  · rw [lowerCaseKeyNormalizer_eq_map key, lowerCaseKeyNormalizer_eq_map]
    refine congrArg String.mk ?_
    simp only [List.map_map]
    exact List.map_congr_left fun ch _ => lowerNormChar_idem ch

/-- The three option setters the repository ships, as data, so that lists
of shipped options can be quantified over. -/
inductive ShippedOpt where
  | converterOpt (f : MetricConverter)
  | keyNormalizerOpt (f : Normalizer)
  | flushRateOpt (d : Int)

/-- The setter a shipped option denotes. -/
def ShippedOpt.toSetter : ShippedOpt → optSetter
  | .converterOpt f => Converter f
  | .keyNormalizerOpt f => KeyNormalizer f
  | .flushRateOpt d => FlushRate d

/-- Whether a shipped option is a `Converter` override. -/
def ShippedOpt.isConverterOpt : ShippedOpt → Bool
  | .converterOpt _ => true
  | _ => false

/-- Whether a shipped option is a `KeyNormalizer` override. -/
def ShippedOpt.isKeyNormalizerOpt : ShippedOpt → Bool
  | .keyNormalizerOpt _ => true
  | _ => false

/-- Whether a shipped option is a `FlushRate` override. -/
def ShippedOpt.isFlushRateOpt : ShippedOpt → Bool
  | .flushRateOpt _ => true
  | _ => false

/-- Splitting the setter loop at an arbitrary point. -/
theorem applyOpts_append (l1 l2 : List optSetter) :
    ∀ c, applyOpts (l1 ++ l2) c
      = match applyOpts l1 c with
        | .error e => .error e
        | .ok c2 => applyOpts l2 c2 := by
  induction l1 with
  | nil => intro c; rfl
  | cons s rest ih =>
      intro c
      simp only [List.cons_append, applyOpts]
      cases s c with
      | error e => rfl
      | ok c2 => exact ih c2

/-- Running only shipped setters changes nothing but the overridden
fields, and never fails. -/
theorem applyOpts_shipped (opts : List ShippedOpt) :
    ∀ (c0 conf : PrometheusConfig),
      applyOpts (opts.map ShippedOpt.toSetter) c0 = .ok conf →
        ((∀ o ∈ opts, o.isFlushRateOpt = false) → conf.FlushInterval = c0.FlushInterval)
        ∧ ((∀ o ∈ opts, o.isConverterOpt = false) → conf.converter = c0.converter)
        ∧ ((∀ o ∈ opts, o.isKeyNormalizerOpt = false) → conf.keyNormalizer = c0.keyNormalizer)
        ∧ conf.Namespace = c0.Namespace ∧ conf.Subsystem = c0.Subsystem
        ∧ conf.registry = c0.registry := by
  induction opts with
  | nil =>
      intro c0 conf h
      cases h
      exact ⟨fun _ => rfl, fun _ => rfl, fun _ => rfl, rfl, rfl, rfl⟩
  | cons o rest ih =>
      intro c0 conf h
      cases o with
      | converterOpt f =>
          simp only [List.map_cons, applyOpts, ShippedOpt.toSetter, Converter] at h
          obtain ⟨hF, hC, hK, hN, hS, hR⟩ := ih _ conf h
          refine ⟨?_, ?_, ?_, hN, hS, hR⟩
          · intro hall
            exact hF fun o ho => hall o (List.mem_cons_of_mem _ ho)
          · intro hall
            have := hall (ShippedOpt.converterOpt f) (List.mem_cons_self _ _)
            simp [ShippedOpt.isConverterOpt] at this
          · intro hall
            exact hK fun o ho => hall o (List.mem_cons_of_mem _ ho)
      | keyNormalizerOpt f =>
          simp only [List.map_cons, applyOpts, ShippedOpt.toSetter, KeyNormalizer] at h
          obtain ⟨hF, hC, hK, hN, hS, hR⟩ := ih _ conf h
          refine ⟨?_, ?_, ?_, hN, hS, hR⟩
          · intro hall
            exact hF fun o ho => hall o (List.mem_cons_of_mem _ ho)
          · intro hall
            exact hC fun o ho => hall o (List.mem_cons_of_mem _ ho)
          · intro hall
            have := hall (ShippedOpt.keyNormalizerOpt f) (List.mem_cons_self _ _)
            simp [ShippedOpt.isKeyNormalizerOpt] at this
      | flushRateOpt d =>
          simp only [List.map_cons, applyOpts, ShippedOpt.toSetter, FlushRate] at h
          obtain ⟨hF, hC, hK, hN, hS, hR⟩ := ih _ conf h
          refine ⟨?_, ?_, ?_, hN, hS, hR⟩
          · intro hall
            have := hall (ShippedOpt.flushRateOpt d) (List.mem_cons_self _ _)
            simp [ShippedOpt.isFlushRateOpt] at this
          · intro hall
            exact hC fun o ho => hall o (List.mem_cons_of_mem _ ho)
          · intro hall
            exact hK fun o ho => hall o (List.mem_cons_of_mem _ ho)

/-- Claim C9: `NewPrometheusProvider` applies the setters in order and
fails closed — as soon as an intermediate setter errors, the whole call
returns exactly that error and no configuration — and a successful call
with shipped setters leaves every option not overridden at its default:
15 seconds of flush interval, `DefaultMetricConverter`,
`DefaultKeyNormalizer`. -/
theorem newPrometheusProvider_order_and_defaults (r : List (String × Metric))
    (ns ss : String) :
    (∀ (pre : List optSetter) (s : optSetter) (post : List optSetter)
        (c : PrometheusConfig) (e : String),
        applyOpts pre (initialConf r ns ss) = .ok c → s c = .error e →
        NewPrometheusProvider r ns ss (pre ++ s :: post) = .error e)
    ∧ (∀ (opts : List ShippedOpt) (conf : PrometheusConfig),
        NewPrometheusProvider r ns ss (opts.map ShippedOpt.toSetter) = .ok conf →
          ((∀ o ∈ opts, o.isFlushRateOpt = false) → conf.FlushInterval = 15 * 1000000000)
          ∧ ((∀ o ∈ opts, o.isConverterOpt = false) → conf.converter = DefaultMetricConverter)
          ∧ ((∀ o ∈ opts, o.isKeyNormalizerOpt = false)
              → conf.keyNormalizer = DefaultKeyNormalizer)
          ∧ conf.Namespace = ns ∧ conf.Subsystem = ss ∧ conf.registry = r) := by
  constructor
  · intro pre s post c e h1 h2
    unfold NewPrometheusProvider
    rw [applyOpts_append, h1]
    simp only [applyOpts, h2]
  · intro opts conf h
    exact applyOpts_shipped opts (initialConf r ns ss) conf h

/-- The configuration produced by the shipped `FlushRate 7` override,
used to instantiate the defaults branch of claim C9. -/
def flushRate7Conf : PrometheusConfig :=
  { initialConf [] "n" "s" with FlushInterval := 7 }

/-- Witness for claim C9: a failing custom setter aborts construction with
its error, and a construction overriding only the flush rate keeps the
default converter and normalizer. -/
theorem newPrometheusProvider_order_and_defaults_witness :
    NewPrometheusProvider [] "n" "s"
        ([] ++ ((fun _ => Except.error "boom") : optSetter) :: []) = Except.error "boom"
    ∧ NewPrometheusProvider [] "n" "s"
        ([ShippedOpt.flushRateOpt 7].map ShippedOpt.toSetter) = Except.ok flushRate7Conf
    ∧ flushRate7Conf.converter = DefaultMetricConverter
    ∧ flushRate7Conf.keyNormalizer = DefaultKeyNormalizer :=
  ⟨(newPrometheusProvider_order_and_defaults [] "n" "s").1 [] _ [] _ "boom" rfl rfl,
   rfl,
   ((newPrometheusProvider_order_and_defaults [] "n" "s").2 [ShippedOpt.flushRateOpt 7]
      flushRate7Conf rfl).2.1
     (by
        intro o ho
        rw [List.mem_singleton] at ho
        subst ho
        rfl),
   ((newPrometheusProvider_order_and_defaults [] "n" "s").2 [ShippedOpt.flushRateOpt 7]
      flushRate7Conf rfl).2.2.1
     (by
        intro o ho
        rw [List.mem_singleton] at ho
        subst ho
        rfl)⟩

/-- Claim C10: each shipped setter succeeds on every argument — in
particular `FlushRate` accepts any duration, including zero and negative
ones — so `NewPrometheusProvider` with any list of shipped setters never
returns an error. -/
theorem shippedSetters_never_fail :
    (∀ (f : MetricConverter) (c : PrometheusConfig), ∃ c2, Converter f c = .ok c2)
    ∧ (∀ (g : Normalizer) (c : PrometheusConfig), ∃ c2, KeyNormalizer g c = .ok c2)
    ∧ (∀ (d : Int) (c : PrometheusConfig), ∃ c2, FlushRate d c = .ok c2)
    ∧ (∀ (r : List (String × Metric)) (ns ss : String) (opts : List ShippedOpt),
        ∃ conf, NewPrometheusProvider r ns ss (opts.map ShippedOpt.toSetter) = .ok conf) := by
  refine ⟨fun f c => ⟨_, rfl⟩, fun g c => ⟨_, rfl⟩, fun d c => ⟨_, rfl⟩, ?_⟩
  have hgen : ∀ (opts : List ShippedOpt) (c0 : PrometheusConfig),
      ∃ conf, applyOpts (opts.map ShippedOpt.toSetter) c0 = .ok conf := by
    intro opts
    induction opts with
    | nil => intro c0; exact ⟨c0, rfl⟩
    | cons o rest ih =>
        intro c0
        cases o with
        | converterOpt f => exact ih { c0 with converter := f }
        | keyNormalizerOpt f => exact ih { c0 with keyNormalizer := f }
        | flushRateOpt d => exact ih { c0 with FlushInterval := d }
  intro r ns ss opts
  exact hgen opts (initialConf r ns ss)

/-! ### Multi-pass characterization (claim C2) -/

/-- The cache entries a pass creates for a run of fresh entries, when the
next registration receives handle `R`. -/
def newGauges (c : PrometheusConfig) : Nat → List (String × Metric) → List (String × Nat)
  | _, [] => []
  | R, nm :: rest => (cacheKey c nm.1, R) :: newGauges c (R + 1) rest

/-- The set calls a pass issues for a run of fresh entries, when the next
registration receives handle `R`. -/
def newSets (c : PrometheusConfig) : Nat → List (String × Metric) → List (Nat × Float64)
  | _, [] => []
  | R, nm :: rest => (R, (c.converter nm.1 nm.2).1) :: newSets c (R + 1) rest

/-- The set calls a pass issues when every entry hits the cache `gauges`. -/
def steadySets (c : PrometheusConfig) (gauges : List (String × Nat)) :
    List (String × Metric) → List (Nat × Float64)
  | [] => []
  | nm :: rest =>
      match mapLookup gauges (cacheKey c nm.1) with
      | some g => (g, (c.converter nm.1 nm.2).1) :: steadySets c gauges rest
      | none => steadySets c gauges rest

/-- Replacing the registry snapshot leaves the per-entry step function
unchanged: it reads only the converter, normalizer, namespace and
subsystem of the configuration. -/
theorem convertAndMaybeUpsert_registry (c : PrometheusConfig)
    (reg : List (String × Metric)) :
    convertAndMaybeUpsert { c with registry := reg } = convertAndMaybeUpsert c := rfl

/-- Looking a key up in an appended cache searches the front first. -/
theorem mapLookup_append (l1 l2 : List (String × Nat)) (k : String) :
    mapLookup (l1 ++ l2) k
      = match mapLookup l1 k with
        | some g => some g
        | none => mapLookup l2 k := by
  induction l1 with
  | nil => rfl
  | cons a rest ih =>
      obtain ⟨k2, g2⟩ := a
      simp only [List.cons_append, mapLookup]
      by_cases h : k2 = k
      · simp [h]
      · simp [h, ih]

/-- A key is found in the modelled map exactly when it is one of its keys. -/
theorem mapLookup_isSome_iff (l : List (String × Nat)) (k : String) :
    (mapLookup l k).isSome = true ↔ k ∈ l.map Prod.fst := by
  induction l with
  | nil => simp [mapLookup]
  | cons a rest ih =>
      obtain ⟨k2, g2⟩ := a
      by_cases h : k2 = k
      · simp [mapLookup, h]
      · simp only [mapLookup, if_neg h, List.map_cons, List.mem_cons, ih]
        constructor
        · intro hk
          exact Or.inr hk
        · intro hk
          cases hk with
          | inl heq => exact absurd heq.symm h
          | inr hk => exact hk

/-- The keys of the cache entries created for fresh entries. -/
theorem map_fst_newGauges (c : PrometheusConfig) :
    ∀ (entries : List (String × Metric)) (R : Nat),
      (newGauges c R entries).map Prod.fst
        = entries.map (fun nm => cacheKey c nm.1) := by
  intro entries
  induction entries with
  | nil => intro R; rfl
  | cons a as ih =>
      intro R
      simp only [newGauges, List.map_cons, ih]

/-- Handles of freshly created cache entries lie in the handle range the
run consumed. -/
theorem mem_newGauges_range (c : PrometheusConfig) :
    ∀ (entries : List (String × Metric)) (R : Nat) (k : String) (g : Nat),
      (k, g) ∈ newGauges c R entries → R ≤ g ∧ g < R + entries.length := by
  intro entries
  induction entries with
  | nil => intro R k g h; cases h
  | cons a as ih =>
      intro R k g h
      simp only [newGauges, List.mem_cons] at h
      cases h with
      | inl heq =>
          have : g = R := congrArg Prod.snd heq
          subst this
          simp
      | inr hmem =>
          have := ih (R + 1) k g hmem
          constructor
          · omega
          · simp only [List.length_cons]
            omega

/-- Each handle in the consumed range receives exactly one set call from a
fresh run, and handles outside it none. -/
theorem countP_newSets (c : PrometheusConfig) :
    ∀ (entries : List (String × Metric)) (R g : Nat),
      (newSets c R entries).countP (fun s => s.1 == g)
        = if R ≤ g ∧ g < R + entries.length then 1 else 0 := by
  intro entries
  induction entries with
  | nil =>
      intro R g
      simp only [newSets, List.countP_nil, List.length_nil]
      rw [if_neg (by omega)]
  | cons a as ih =>
      intro R g
      simp only [newSets, List.countP_cons, ih, List.length_cons, beq_iff_eq]
      split_ifs <;> omega

/-- A pass over entries that all convert and are all absent from the cache
appends one cache entry, one registration and one set call per entry. -/
theorem foldl_fresh (c : PrometheusConfig) :
    ∀ (entries : List (String × Metric)) (st : BridgeState),
      (∀ nm ∈ entries, (c.converter nm.1 nm.2).2 = none) →
      (∀ nm ∈ entries, mapLookup st.gauges (cacheKey c nm.1) = none) →
      ((entries.map (fun nm => cacheKey c nm.1)).Nodup) →
      entries.foldl (convertAndMaybeUpsert c) st
        = ⟨st.gauges ++ newGauges c st.registrations.length entries,
           st.registrations ++ entries.map (fun nm => mkGaugeOpts c nm.1),
           st.sets ++ newSets c st.registrations.length entries⟩ := by
  intro entries
  induction entries with
  | nil =>
      intro st h1 h2 h3
      simp [newGauges, newSets]
  | cons a as ih =>
      intro st h1 h2 h3
      have ha : (c.converter a.1 a.2).2 = none := h1 a (List.mem_cons_self _ _)
      have hpair : c.converter a.1 a.2 = ((c.converter a.1 a.2).1, none) := by
        rw [← ha]
      have hmiss : mapLookup st.gauges (cacheKey c a.1) = none :=
        h2 a (List.mem_cons_self _ _)
      have hstep : convertAndMaybeUpsert c st a
          = ⟨st.gauges ++ [(cacheKey c a.1, st.registrations.length)],
             st.registrations ++ [mkGaugeOpts c a.1],
             st.sets ++ [(st.registrations.length, (c.converter a.1 a.2).1)]⟩ := by
        unfold convertAndMaybeUpsert
        rw [hpair]
        simp only [gaugeFromNameAndValue, hmiss]
      rw [List.foldl_cons, hstep]
      have hkey : ∀ nm ∈ as, cacheKey c nm.1 ≠ cacheKey c a.1 := by
        intro nm hnm heq
        have hnotmem := (List.nodup_cons.mp h3).1
        have hmem : cacheKey c nm.1 ∈ as.map (fun nm => cacheKey c nm.1) :=
          List.mem_map_of_mem (fun nm => cacheKey c nm.1) hnm
        rw [heq] at hmem
        exact hnotmem hmem
      rw [ih]
      · simp [newGauges, newSets, List.append_assoc]
      · intro nm hnm
        exact h1 nm (List.mem_cons_of_mem _ hnm)
      · intro nm hnm
        rw [mapLookup_append]
        rw [h2 nm (List.mem_cons_of_mem _ hnm)]
        simp only [mapLookup]
        rw [if_neg fun heq => hkey nm hnm heq.symm]
      · exact (List.nodup_cons.mp h3).2

/-- A pass over entries that all convert and are all present in the cache
leaves the cache and the registrations unchanged and appends one set call
per entry on the cached handle. -/
theorem foldl_steady (c : PrometheusConfig) :
    ∀ (entries : List (String × Metric)) (st : BridgeState),
      (∀ nm ∈ entries, (c.converter nm.1 nm.2).2 = none) →
      (∀ nm ∈ entries, (mapLookup st.gauges (cacheKey c nm.1)).isSome = true) →
      entries.foldl (convertAndMaybeUpsert c) st
        = ⟨st.gauges, st.registrations, st.sets ++ steadySets c st.gauges entries⟩ := by
  intro entries
  induction entries with
  | nil =>
      intro st h1 h2
      simp [steadySets]
  | cons a as ih =>
      intro st h1 h2
      have ha : (c.converter a.1 a.2).2 = none := h1 a (List.mem_cons_self _ _)
      have hpair : c.converter a.1 a.2 = ((c.converter a.1 a.2).1, none) := by
        rw [← ha]
      obtain ⟨g, hg⟩ := Option.isSome_iff_exists.mp (h2 a (List.mem_cons_self _ _))
      have hstep : convertAndMaybeUpsert c st a
          = ⟨st.gauges, st.registrations,
             st.sets ++ [(g, (c.converter a.1 a.2).1)]⟩ := by
        unfold convertAndMaybeUpsert
        rw [hpair]
        simp only [gaugeFromNameAndValue, hg]
      rw [List.foldl_cons, hstep]
      rw [ih]
      · simp only [steadySets, hg, List.append_assoc, List.singleton_append]
      · intro nm hnm
        exact h1 nm (List.mem_cons_of_mem _ hnm)
      · intro nm hnm
        exact h2 nm (List.mem_cons_of_mem _ hnm)

/-- A steady pass over a registry with the same name sequence as the one
that built the cache issues the same handles a fresh pass assigned: the
entry at position `j` sets handle `R + j`. -/
theorem steadySets_eq_newSets (c : PrometheusConfig) :
    ∀ (e1 e2 : List (String × Metric)) (R : Nat) (pre : List (String × Nat)),
      e1.map Prod.fst = e2.map Prod.fst →
      ((e1.map (fun nm => cacheKey c nm.1)).Nodup) →
      (∀ nm ∈ e1, mapLookup pre (cacheKey c nm.1) = none) →
      steadySets c (pre ++ newGauges c R e1) e2 = newSets c R e2 := by
  intro e1
  induction e1 with
  | nil =>
      intro e2 R pre hfst hnodup hpre
      have : e2 = [] := by
        cases e2 with
        | nil => rfl
        | cons b bs => simp at hfst
      subst this
      rfl
  | cons a as ih =>
      intro e2 R pre hfst hnodup hpre
      cases e2 with
      | nil => simp at hfst
      | cons b bs =>
          simp only [List.map_cons, List.cons.injEq] at hfst
          obtain ⟨hab, hasbs⟩ := hfst
          have hkeyb : cacheKey c b.1 = cacheKey c a.1 := by rw [← hab]
          have hlook : mapLookup (pre ++ (cacheKey c a.1, R) :: newGauges c (R + 1) as)
              (cacheKey c b.1) = some R := by
            rw [hkeyb, mapLookup_append, hpre a (List.mem_cons_self _ _)]
            simp [mapLookup]
          simp only [steadySets, newGauges, newSets]
          simp only [hlook]
          refine congrArg (List.cons _) ?_
          have hassoc : pre ++ (cacheKey c a.1, R) :: newGauges c (R + 1) as
              = (pre ++ [(cacheKey c a.1, R)]) ++ newGauges c (R + 1) as := by
            simp
          rw [show steadySets c (pre ++ (cacheKey c a.1, R) :: newGauges c (R + 1) as) bs
              = steadySets c ((pre ++ [(cacheKey c a.1, R)]) ++ newGauges c (R + 1) as) bs
              from by rw [hassoc]]
          refine ih bs (R + 1) (pre ++ [(cacheKey c a.1, R)]) hasbs
            (List.nodup_cons.mp hnodup).2 ?_
          intro nm hnm
          rw [mapLookup_append, hpre nm (List.mem_cons_of_mem _ hnm)]
          simp only [mapLookup]
          rw [if_neg]
          intro heq
          have hnotmem := (List.nodup_cons.mp hnodup).1
          have hmem : cacheKey c nm.1 ∈ as.map (fun nm => cacheKey c nm.1) :=
            List.mem_map_of_mem (fun nm => cacheKey c nm.1) hnm
          rw [← heq] at hmem
          exact hnotmem hmem

/-- Once every key of the fixed name sequence is cached, further passes
leave the cache and registrations unchanged and only append set calls. -/
theorem runPassesOn_steady (c : PrometheusConfig) (names : List String)
    (G : List (String × Nat))
    (hG : G.map Prod.fst = names.map (fun n => cacheKey c n)) :
    ∀ (regs : List (List (String × Metric))) (st : BridgeState),
      st.gauges = G →
      (∀ reg ∈ regs, reg.map Prod.fst = names) →
      (∀ reg ∈ regs, ∀ nm ∈ reg, (c.converter nm.1 nm.2).2 = none) →
      runPassesOn c regs st
        = ⟨st.gauges, st.registrations,
           st.sets ++ (regs.map (fun reg => steadySets c G reg)).flatten⟩ := by
  intro regs
  induction regs with
  | nil =>
      intro st hst hnames hconv
      simp [runPassesOn]
  | cons reg more ih =>
      intro st hst hnames hconv
      have hpass : (UpdatePrometheusMetricsOnce { c with registry := reg } st).1
          = ⟨st.gauges, st.registrations, st.sets ++ steadySets c st.gauges reg⟩ := by
        show reg.foldl (convertAndMaybeUpsert { c with registry := reg }) st = _
        rw [convertAndMaybeUpsert_registry]
        refine foldl_steady c reg st (hconv reg (List.mem_cons_self _ _)) ?_
        intro nm hnm
        rw [mapLookup_isSome_iff, hst, hG]
        have hname : nm.1 ∈ names := by
          rw [← hnames reg (List.mem_cons_self _ _)]
          exact List.mem_map_of_mem Prod.fst hnm
        exact List.mem_map_of_mem (fun n => cacheKey c n) hname
      rw [runPassesOn, hpass]
      rw [ih ⟨st.gauges, st.registrations, st.sets ++ steadySets c st.gauges reg⟩
        (by rw [hst])
        (fun r hr => hnames r (List.mem_cons_of_mem _ hr))
        (fun r hr => hconv r (List.mem_cons_of_mem _ hr))]
      simp [hst, List.append_assoc]

/-- The full characterization of a run of `N = 1 + rest.length` passes
whose snapshots share one duplicate-free name sequence and convert without
error: the cache and the registrations are exactly those of the first
pass, and each pass contributes one positionally indexed block of set
calls. -/
theorem runPassesOn_characterization (c : PrometheusConfig)
    (reg1 : List (String × Metric)) (rest : List (List (String × Metric)))
    (hnodup : (reg1.map (fun nm => cacheKey c nm.1)).Nodup)
    (hnames : ∀ reg ∈ rest, reg.map Prod.fst = reg1.map Prod.fst)
    (hconv1 : ∀ nm ∈ reg1, (c.converter nm.1 nm.2).2 = none)
    (hconvr : ∀ reg ∈ rest, ∀ nm ∈ reg, (c.converter nm.1 nm.2).2 = none) :
    runPassesOn c (reg1 :: rest) emptyBridgeState
      = ⟨newGauges c 0 reg1,
         reg1.map (fun nm => mkGaugeOpts c nm.1),
         newSets c 0 reg1 ++ (rest.map (fun reg => newSets c 0 reg)).flatten⟩ := by
  have hfirst : (UpdatePrometheusMetricsOnce { c with registry := reg1 } emptyBridgeState).1
      = ⟨newGauges c 0 reg1, reg1.map (fun nm => mkGaugeOpts c nm.1),
         newSets c 0 reg1⟩ := by
    show reg1.foldl (convertAndMaybeUpsert { c with registry := reg1 }) emptyBridgeState = _
    rw [convertAndMaybeUpsert_registry]
    rw [foldl_fresh c reg1 emptyBridgeState hconv1 (fun nm _ => rfl) hnodup]
    rfl
  rw [runPassesOn, hfirst]
  have hG : (newGauges c 0 reg1).map Prod.fst
      = (reg1.map Prod.fst).map (fun n => cacheKey c n) := by
    rw [map_fst_newGauges, List.map_map]
    rfl
  rw [runPassesOn_steady c (reg1.map Prod.fst) (newGauges c 0 reg1) hG rest
    ⟨newGauges c 0 reg1, reg1.map (fun nm => mkGaugeOpts c nm.1), newSets c 0 reg1⟩
    rfl hnames hconvr]
  have hsteady : rest.map (fun reg => steadySets c (newGauges c 0 reg1) reg)
      = rest.map (fun reg => newSets c 0 reg) := by
    refine List.map_congr_left fun reg hr => ?_
    have := steadySets_eq_newSets c reg1 reg 0 [] (hnames reg hr).symm hnodup
      (fun nm _ => rfl)
    simpa using this
  rw [hsteady]

/-- Prepending a fixed string is injective, so distinct raw metric names
produce distinct cache keys. -/
theorem string_append_left_injective (p : String) :
    Function.Injective fun s => p ++ s := by
  intro a b h
  have hd : (p ++ a).data = (p ++ b).data := congrArg String.data h
  simp only [String.data_append] at hd
  exact String.ext (List.append_cancel_left hd)

/-- Across the steady passes, a handle below every snapshot length
receives exactly one set call per pass. -/
theorem countP_flatten_newSets (c : PrometheusConfig) (g : Nat) :
    ∀ (regs : List (List (String × Metric))),
      (∀ reg ∈ regs, g < reg.length) →
      ((regs.map (fun reg => newSets c 0 reg)).flatten).countP (fun s => s.1 == g)
        = regs.length := by
  intro regs
  induction regs with
  | nil => intro h; rfl
  | cons reg more ih =>
      intro h
      simp only [List.map_cons, List.flatten_cons, List.countP_append]
      rw [countP_newSets,
        if_pos ⟨Nat.zero_le g, by have := h reg (List.mem_cons_self _ _); omega⟩]
      rw [ih (fun r hr => h r (List.mem_cons_of_mem _ hr))]
      simp only [List.length_cons]
      omega

/-- Claim C2: over any sequence of `N = 1 + rest.length >= 1` pass
snapshots sharing one duplicate-free name sequence, all of whose metrics
convert successfully, the run from the initial state registers exactly one
gauge per metric name (with the descriptor of its first observation),
keeps exactly one cache entry per composite key after every prefix of
passes, and issues exactly `N` set calls on each cached handle. -/
theorem passes_register_once_and_set_each_pass (c : PrometheusConfig)
    (reg1 : List (String × Metric)) (rest : List (List (String × Metric)))
    (names : List String)
    (hn1 : reg1.map Prod.fst = names)
    (hnames : ∀ reg ∈ rest, reg.map Prod.fst = names)
    (hnodup : names.Nodup)
    (hconv : ∀ reg ∈ reg1 :: rest, ∀ nm ∈ reg, (c.converter nm.1 nm.2).2 = none) :
    (runPassesOn c (reg1 :: rest) emptyBridgeState).registrations
        = reg1.map (fun nm => mkGaugeOpts c nm.1)
    ∧ (runPassesOn c (reg1 :: rest) emptyBridgeState).gauges.map Prod.fst
        = names.map (fun n => cacheKey c n)
    ∧ (∀ pre post, reg1 :: rest = pre ++ post →
        ((runPassesOn c pre emptyBridgeState).gauges.map Prod.fst).Nodup)
    ∧ (∀ e ∈ (runPassesOn c (reg1 :: rest) emptyBridgeState).gauges,
        (runPassesOn c (reg1 :: rest) emptyBridgeState).sets.countP
          (fun s => s.1 == e.2) = (reg1 :: rest).length) := by
  have hkeyinj : Function.Injective fun n => cacheKey c n :=
    string_append_left_injective (c.Namespace ++ "_" ++ c.Subsystem ++ "_")
  have hknodup : (names.map fun n => cacheKey c n).Nodup := hnodup.map hkeyinj
  have hkeys1 : reg1.map (fun nm => cacheKey c nm.1) = names.map fun n => cacheKey c n := by
    rw [← hn1, List.map_map]
    rfl
  have hnodup1 : (reg1.map (fun nm => cacheKey c nm.1)).Nodup := by
    rw [hkeys1]
    exact hknodup
  have hchar := runPassesOn_characterization c reg1 rest hnodup1
    (fun reg hr => (hnames reg hr).trans hn1.symm)
    (hconv reg1 (List.mem_cons_self _ _))
    (fun reg hr => hconv reg (List.mem_cons_of_mem _ hr))
  refine ⟨?_, ?_, ?_, ?_⟩
  · rw [hchar]
  · rw [hchar]
    exact (map_fst_newGauges c reg1 0).trans hkeys1
  · intro pre post hsplit
    cases pre with
    | nil => simp [runPassesOn, emptyBridgeState]
    | cons p pre2 =>
        simp only [List.cons_append] at hsplit
        injection hsplit with hp hrest
        subst hp
        have hchar2 := runPassesOn_characterization c reg1 pre2 hnodup1
          (fun reg hr => (hnames reg (hrest ▸ List.mem_append_left post hr)).trans hn1.symm)
          (hconv reg1 (List.mem_cons_self _ _))
          (fun reg hr =>
            hconv reg (List.mem_cons_of_mem _ (hrest ▸ List.mem_append_left post hr)))
        rw [hchar2, map_fst_newGauges, hkeys1]
        exact hknodup
  · intro e he
    rw [hchar] at he ⊢
    have hrange := mem_newGauges_range c reg1 0 e.1 e.2 (by simpa using he)
    simp only [List.countP_append]
    rw [countP_newSets, if_pos hrange]
    rw [countP_flatten_newSets c e.2 rest ?_]
    · simp only [List.length_cons]
      omega
    · intro reg hr
      have h1 : reg.length = names.length := by
        have := congrArg List.length (hnames reg hr)
        simpa using this
      have h2 : reg1.length = names.length := by
        have := congrArg List.length hn1
        simpa using this
      have := hrange.2
      omega

/-- The configuration used to instantiate the multi-pass theorem. -/
def passConf : PrometheusConfig :=
  { Namespace := "ns"
    Subsystem := "ss"
    registry := []
    FlushInterval := 1000000000
    converter := DefaultMetricConverter
    keyNormalizer := DefaultKeyNormalizer }

/-- First pass snapshot for the multi-pass witness. -/
def passA : List (String × Metric) := [("a", Metric.counter 3), ("b", Metric.gauge 5)]

/-- Second pass snapshot for the multi-pass witness: same names, updated
values. -/
def passB : List (String × Metric) := [("a", Metric.counter 4), ("b", Metric.gauge 6)]

/-- Witness for claim C2: two passes over the names `a`, `b` with updated
values register each name once and set each cached handle twice. -/
theorem passes_register_once_and_set_each_pass_witness :
    (["a", "b"] : List String).Nodup
    ∧ (runPassesOn passConf [passA, passB] emptyBridgeState).registrations
        = passA.map (fun nm => mkGaugeOpts passConf nm.1)
    ∧ (∀ e ∈ (runPassesOn passConf [passA, passB] emptyBridgeState).gauges,
        (runPassesOn passConf [passA, passB] emptyBridgeState).sets.countP
          (fun s => s.1 == e.2) = 2) :=
  ⟨by decide,
   (passes_register_once_and_set_each_pass passConf passA [passB] ["a", "b"]
      rfl (by decide) (by decide) (by decide)).1,
   (passes_register_once_and_set_each_pass passConf passA [passB] ["a", "b"]
      rfl (by decide) (by decide) (by decide)).2.2.2⟩

end GoMetricsPrometheus
